import Mathlib

/-!
Verification of the PMC OAI-PMH search tool (`src/app.py`).

The development shallowly embeds the program's core pipeline:

* `text_match`            — the keyword predicate (app.py lines 44-49);
* `extractRecord` and its helpers — the per-record field extraction
  (app.py lines 71-106);
* `processBatch` / `harvestLoop` / `fetch_pmc_oai_records`
                          — the paginated harvest loop (app.py lines 51-120),
  modelled over an abstract stream of endpoint responses and an explicit
  fuel parameter (the Python loop is `while True`, so a run that never
  exits is modelled by the function answering `none` for every fuel);
* `keepRecordE` / `filterLoop` — the local filter in the button handler
  (app.py lines 129-135), with Python's fallible `int(...)` modelled by
  an `Option`-valued parse.

Strings are lists of characters; Python `str.lower`, `str.split`,
`in` (substring), `str.startswith` and `"; ".join` are modelled
character-wise below.
-/

namespace PMC

/-- Whitespace recognizer for Python `str.split()` (space, tab, newline,
carriage return, vertical tab, form feed — the ASCII whitespace the data
at hand can contain). -/
def isSpaceB (c : Char) : Bool :=
  c.toNat = 32 || c.toNat = 9 || c.toNat = 10 || c.toNat = 13 ||
  c.toNat = 11 || c.toNat = 12

/-- Model of Python `str.lower` on one character: ASCII upper-case letters
are shifted down by 32, every other character is unchanged. -/
def lowerChar (c : Char) : Char :=
  if 65 ≤ c.toNat ∧ c.toNat ≤ 90 then Char.ofNat (c.toNat + 32) else c

/-- Model of Python `str.lower` on a whole string. -/
def lowerStr (s : List Char) : List Char :=
  s.map lowerChar

/-- Helper for `splitWs`: the accumulator holds the word currently being
read. -/
def splitWsAux : List Char → List Char → List (List Char)
  | [], acc => if acc = [] then [] else [acc]
  | c :: t, acc =>
    if isSpaceB c then
      if acc = [] then splitWsAux t [] else acc :: splitWsAux t []
    else
      splitWsAux t (acc ++ [c])

/-- Model of Python `str.split()` with no argument: split on runs of
whitespace, discarding empty pieces. -/
def splitWs (s : List Char) : List (List Char) :=
  splitWsAux s []

/-- Model of Python's substring test `w in t`: some contiguous run of `t`
equals `w` (the empty string occurs in every string). -/
def containsSub : List Char → List Char → Bool
  | t, w =>
    if w.isPrefixOf t then true
    else
      match t with
      | [] => false
      | _ :: t' => containsSub t' w

/-- Embedding of `text_match` (app.py lines 44-49): an empty title never
matches; otherwise the query is lower-cased and split into words and every
word must occur in the lower-cased title. -/
def text_match (text query : List Char) : Bool :=
  if text = [] then false
  else
    (splitWs (lowerStr query)).all (fun w => containsSub (lowerStr text) w)

/-- Numeric value of a digit string, most significant digit first. -/
def digitsToNat (s : List Char) : Nat :=
  s.foldl (fun n c => 10 * n + (c.toNat - 48)) 0

/-- Model of Python `int(...)` restricted to the strings this program
feeds it (possibly-empty digit strings): it succeeds exactly on a
non-empty all-digit string, returning its decimal value, and fails
(raises `ValueError`, modelled as `none`) otherwise. -/
def pythonIntParse (s : List Char) : Option Int :=
  if s ≠ [] ∧ s.all Char.isDigit then some (Int.ofNat (digitsToNat s)) else none

/-! ### The XML data model

A response page is a list of record elements; each record element
optionally carries a metadata container, which optionally carries a
Dublin-Core element with repeatable title / creator / identifier / date
children.  An element's text may be missing (`none`) or empty, matching
`xml.etree` where `e.text` can be `None`. -/

/-- Dublin-Core element: the repeatable children the code reads.  Each
child's text is `Option`-valued, as in `xml.etree`. -/
structure DcElem where
  titles : List (Option (List Char))
  creators : List (Option (List Char))
  identifiers : List (Option (List Char))
  dates : List (Option (List Char))
deriving DecidableEq

/-- The `oai:metadata` container of one record, optionally holding a
`dc:dc` element. -/
structure MetadataElem where
  dc : Option DcElem
deriving DecidableEq

/-- One `oai:record` element, optionally holding its metadata container. -/
structure RecordElem where
  metadata : Option MetadataElem
deriving DecidableEq

/-- One parsed response page: its record elements and its optional
resumption token (`none` when the element is missing or has no text;
`some []` when the text is empty). -/
structure Page where
  records : List RecordElem
  token : Option (List Char)
deriving DecidableEq

/-- Failures a single request can surface: a non-2xx status
(`raise_for_status`), a network failure or timeout (`requests.get`), or
malformed XML (`ET.fromstring`). -/
inductive HarvestError where
  | httpStatus : Nat → HarvestError
  | network : HarvestError
  | timedOut : HarvestError
  | parseFailure : HarvestError
deriving DecidableEq

/-- What one request to the endpoint produces: either a failure or a
parsed page. -/
abbrev Response := Except HarvestError Page

/-- One harvested record, with the five fields the code builds
(app.py lines 100-106).  Absent year / pmcid / doi are the empty string,
as in the source. -/
structure RawRecord where
  Title : List Char
  Authors : List Char
  Year : List Char
  PMCID : List Char
  DOI : List Char
deriving DecidableEq

/-- Model of the list comprehensions `[e.text for e in ... if e.text]`:
keep the texts that are present and non-empty. -/
def textList (es : List (Option (List Char))) : List (List Char) :=
  es.filterMap fun o =>
    match o with
    | none => none
    | some s => if s = [] then none else some s

/-- Model of `"; ".join(xs)`. -/
def joinSemi (xs : List (List Char)) : List Char :=
  List.intercalate [';', ' '] xs

/-- Embedding of the identifier loop (app.py lines 88-92): one pass over
the identifiers, overwriting `pmcid` on every identifier starting with
`"PMC"` and `doi` on every identifier starting with `"10."`; both start
out empty. -/
def pickIds (ids : List (List Char)) : List Char × List Char :=
  ids.foldl
    (fun pd i =>
      (if List.isPrefixOf ['P', 'M', 'C'] i then i else pd.1,
       if List.isPrefixOf ['1', '0', '.'] i then i else pd.2))
    ([], [])

/-- The 4-digit window of `s` at position `i`: `some` of the four
characters starting at `i` when they exist and are all digits, else
`none`. -/
def winAt (s : List Char) (i : Nat) : Option (List Char) :=
  let w := (s.drop i).take 4
  if w.length = 4 && w.all Char.isDigit then some w else none

/-- Model of `re.search(r"\d{4}", s)`: scan left to right and return the
first position's 4-digit window, if any. -/
def findFirst4 : List Char → Option (List Char)
  | [] => none
  | c :: t =>
    match winAt (c :: t) 0 with
    | some w => some w
    | none => findFirst4 t

/-- Embedding of the year extraction (app.py lines 94-98): search the
first date string for a 4-digit sequence; the year is the empty string
when there is no date or no such sequence. -/
def yearOf (dates : List (List Char)) : List Char :=
  match dates with
  | [] => []
  | d :: _ =>
    match findFirst4 d with
    | some y => y
    | none => []

/-- Embedding of the per-record extraction (app.py lines 71-106): a record
element missing its metadata container or its Dublin-Core element yields
`none` (the `continue` branches); otherwise the five fields are built. -/
def extractRecord (re : RecordElem) : Option RawRecord :=
  match re.metadata with
  | none => none
  | some meta =>
    match meta.dc with
    | none => none
    | some dc =>
      let ids := textList dc.identifiers
      some
        { Title := joinSemi (textList dc.titles)
          Authors := joinSemi (textList dc.creators)
          Year := yearOf (textList dc.dates)
          PMCID := (pickIds ids).1
          DOI := (pickIds ids).2 }

/-- Embedding of the body of the `for rec in root.findall(...)` loop
(app.py lines 71-109): process the record elements of one page in order,
appending each extracted record; as soon as the accumulated list reaches
`maxRecords` the flag `true` is returned together with the list (the
`return records` inside the loop). -/
def processBatch : List RawRecord → List RecordElem → Nat → List RawRecord × Bool
  | acc, [], _ => (acc, false)
  | acc, re :: rest, maxRecords =>
    match extractRecord re with
    | none => processBatch acc rest maxRecords
    | some r =>
      let acc' := acc ++ [r]
      if maxRecords ≤ acc'.length then (acc', true)
      else processBatch acc' rest maxRecords

/-- Embedding of the `while True` harvest loop (app.py lines 61-120) over
an abstract response stream `s` (the value of `s k` is what the `k`-th
request produces).  `fuel` bounds how many requests the model may unfold:
`none` means the fuel ran out with the loop still running, so a real run
that never exits is the function answering `none` for every fuel.  A
failing request surfaces the error (`Except.error`); otherwise the page's
records are processed and the loop continues exactly when a non-empty
resumption token is present. -/
def harvestLoop : Nat → List RawRecord → Nat → (Nat → Response) → Nat →
    Option (Except HarvestError (List RawRecord))
  | 0, _, _, _, _ => none
  | fuel + 1, acc, k, s, maxRecords =>
    match s k with
    | Except.error e => some (Except.error e)
    | Except.ok page =>
      let res := processBatch acc page.records maxRecords
      if res.2 then some (Except.ok res.1)
      else
        match page.token with
        | none => some (Except.ok res.1)
        | some t =>
          if t = [] then some (Except.ok res.1)
          else harvestLoop fuel res.1 (k + 1) s maxRecords

/-- Embedding of `fetch_pmc_oai_records` (app.py lines 51-120): run the
harvest loop from an empty record list and the first request. -/
def fetch_pmc_oai_records (fuel : Nat) (s : Nat → Response) (maxRecords : Nat) :
    Option (Except HarvestError (List RawRecord)) :=
  harvestLoop fuel [] 0 s maxRecords

/-- The harvest loop terminates on response stream `s` with budget
`maxRecords`: some finite number of loop iterations suffices to make it
return. -/
def Terminates (s : Nat → Response) (maxRecords : Nat) : Prop :=
  ∃ fuel, (fetch_pmc_oai_records fuel s maxRecords).isSome = true

/-- Embedding of the year conjunct of the filter condition (app.py line
133), `not r["Year"] or from_year <= int(r["Year"]) <= to_year`: an empty
year passes outright; otherwise `int` is applied (it can fail, hence the
`Option`) and the value must lie in the inclusive range. -/
def yearPredE (year : List Char) (fromYear toYear : Int) : Option Bool :=
  if year = [] then some true
  else (pythonIntParse year).map fun y => decide (fromYear ≤ y ∧ y ≤ toYear)

/-- Embedding of the whole filter condition (app.py lines 131-134) on one
record, with Python's short-circuit `and`: when the title does not match,
the year part is never evaluated. -/
def keepRecordE (r : RawRecord) (q : List Char) (fromYear toYear : Int) :
    Option Bool :=
  if text_match r.Title q then yearPredE r.Year fromYear toYear
  else some false

/-- Helper for `filterLoop`: the `for r in raw_records` loop with its
accumulator; a failing `int(...)` aborts the whole loop (`none`). -/
def filterLoopAux (q : List Char) (fromYear toYear : Int) :
    List RawRecord → List RawRecord → Option (List RawRecord)
  | acc, [] => some acc
  | acc, r :: rs =>
    match keepRecordE r q fromYear toYear with
    | none => none
    | some b => filterLoopAux q fromYear toYear (if b then acc ++ [r] else acc) rs

/-- Embedding of the filter loop in the button handler (app.py lines
129-135). -/
def filterLoop (rs : List RawRecord) (q : List Char) (fromYear toYear : Int) :
    Option (List RawRecord) :=
  filterLoopAux q fromYear toYear [] rs

/-! ### Character-level lemmas -/

theorem char_toNat_ofNat (n : Nat) (h : n.isValidChar) : (Char.ofNat n).toNat = n := by
  simp only [Char.ofNat, Char.toNat, h, dif_pos]
  unfold Char.ofNatAux
  rfl

theorem isSpaceB_lowerChar (c : Char) : isSpaceB (lowerChar c) = isSpaceB c := by
  unfold lowerChar
  by_cases h : 65 ≤ c.toNat ∧ c.toNat ≤ 90
  · rw [if_pos h]
    have hv : (c.toNat + 32).isValidChar := Or.inl (by omega)
    have h1 : isSpaceB (Char.ofNat (c.toNat + 32)) = false := by
      simp [isSpaceB, char_toNat_ofNat _ hv]
      omega
    have h2 : isSpaceB c = false := by
      simp [isSpaceB]
      omega
    rw [h1, h2]
  · rw [if_neg h]

theorem lowerStr_nil : lowerStr [] = [] := rfl

theorem lowerStr_cons (c : Char) (t : List Char) :
    lowerStr (c :: t) = lowerChar c :: lowerStr t := rfl

theorem lowerStr_append (s t : List Char) :
    lowerStr (s ++ t) = lowerStr s ++ lowerStr t := by
  simp [lowerStr]

theorem lowerStr_eq_nil_iff (s : List Char) : lowerStr s = [] ↔ s = [] := by
  simp [lowerStr]

theorem lowerStr_single (c : Char) : lowerStr [c] = [lowerChar c] := rfl

theorem splitWsAux_lower (s : List Char) :
    ∀ acc, splitWsAux (lowerStr s) (lowerStr acc) = (splitWsAux s acc).map lowerStr := by
  induction s with
  | nil =>
    intro acc
    by_cases h : acc = []
    · simp [splitWsAux, h, lowerStr_nil]
    · simp only [lowerStr_nil, splitWsAux, if_neg h,
        if_neg ((not_congr (lowerStr_eq_nil_iff acc)).mpr h)]
      rfl
  | cons c t ih =>
    intro acc
    rw [lowerStr_cons]
    simp only [splitWsAux, isSpaceB_lowerChar]
    by_cases hs : isSpaceB c
    · simp only [if_pos hs]
      by_cases h : acc = []
      · simp only [if_pos h, if_pos ((lowerStr_eq_nil_iff acc).mpr h)]
        simpa [lowerStr] using ih []
      · simp only [if_neg h, if_neg ((not_congr (lowerStr_eq_nil_iff acc)).mpr h),
          List.map_cons]
        congr 1
        simpa [lowerStr] using ih []
    · simp only [if_neg hs]
      rw [← lowerStr_single, ← lowerStr_append]
      exact ih (acc ++ [c])

theorem splitWs_lower (q : List Char) :
    splitWs (lowerStr q) = (splitWs q).map lowerStr := by
  have := splitWsAux_lower q []
  simpa [splitWs, lowerStr_nil] using this

theorem containsSub_iff_infix (t w : List Char) :
    containsSub t w = true ↔ w <:+: t := by
  induction t with
  | nil =>
    rw [containsSub]
    by_cases h : w.isPrefixOf [] = true
    · simp only [h, if_pos]
      have : w = [] := by
        simpa using (List.isPrefixOf_iff_prefix.mp h)
      simp [this]
    · simp only [h]
      simp only [Bool.false_eq_true, if_false, List.infix_nil]
      constructor
      · intro hc
        cases hc
      · intro hw
        exact absurd (List.isPrefixOf_iff_prefix.mpr (hw ▸ List.prefix_refl [])) h
  | cons c t' ih =>
    rw [containsSub]
    by_cases h : w.isPrefixOf (c :: t') = true
    · simp only [h, if_pos]
      have : w <+: c :: t' := List.isPrefixOf_iff_prefix.mp h
      simp [List.infix_cons_iff, this]
    · simp only [h, Bool.false_eq_true, if_false, ih, List.infix_cons_iff]
      constructor
      · exact Or.inr
      · rintro (hp | hi)
        · exact absurd (List.isPrefixOf_iff_prefix.mpr hp) h
        · exact hi

/-- C3: `text_match(T, Q)` returns `True` if and only if the title `T` is
non-empty and every whitespace-delimited word of the query `Q` occurs in
`T` as a case-insensitive substring; an empty title never matches any
query. -/
theorem C3_text_match_iff (T Q : List Char) :
    text_match T Q = true ↔
      (T ≠ [] ∧ ∀ w ∈ splitWs Q, lowerStr w <:+: lowerStr T) := by
  by_cases hT : T = []
  · simp [text_match, hT]
  · rw [text_match, if_neg hT, List.all_eq_true]
    simp only [splitWs_lower, List.forall_mem_map, containsSub_iff_infix]
    exact ⟨fun h => ⟨hT, h⟩, fun h => h.2⟩

/-! ### Identifier selection (claim C5) -/

theorem filter_getLastD_cons (f : List Char → Bool) (i : List Char)
    (t : List (List Char)) (p : List Char) :
    (List.filter f (i :: t)).getLastD p =
      (List.filter f t).getLastD (if f i = true then i else p) := by
  rw [List.filter_cons]
  by_cases h : f i = true
  · rw [if_pos h, if_pos h, List.getLastD_cons]
  · rw [if_neg h, if_neg h]

theorem pickIds_foldl_eq (ids : List (List Char)) : ∀ p d,
    ids.foldl
      (fun pd i =>
        (if List.isPrefixOf ['P', 'M', 'C'] i then i else pd.1,
         if List.isPrefixOf ['1', '0', '.'] i then i else pd.2)) (p, d) =
    ((ids.filter fun i => List.isPrefixOf ['P', 'M', 'C'] i).getLastD p,
     (ids.filter fun i => List.isPrefixOf ['1', '0', '.'] i).getLastD d) := by
  induction ids with
  | nil => intro p d; simp
  | cons i t ih =>
    intro p d
    rw [List.foldl_cons, ih, filter_getLastD_cons, filter_getLastD_cons]

/-- C5: the extracted pmcid is the last identifier (in list order) that
starts with `"PMC"` and the extracted doi is the last identifier that
starts with `"10."`, each empty when no identifier matches; on
`["PMC1234567", "10.1000/xyz", "PMC7654321"]` the pmcid is
`"PMC7654321"` and the doi is `"10.1000/xyz"`. -/
theorem C5_pickIds_spec :
    (∀ ids : List (List Char),
      pickIds ids =
        ((ids.filter fun i => List.isPrefixOf ['P', 'M', 'C'] i).getLastD [],
         (ids.filter fun i => List.isPrefixOf ['1', '0', '.'] i).getLastD [])) ∧
    pickIds [("PMC1234567").toList, ("10.1000/xyz").toList, ("PMC7654321").toList] =
      (("PMC7654321").toList, ("10.1000/xyz").toList) := by
  constructor
  · intro ids
    exact pickIds_foldl_eq ids [] []
  · decide

/-! ### Year extraction (claim C6) -/

theorem winAt_nil (i : Nat) : winAt [] i = none := by
  simp [winAt]

theorem winAt_cons_succ (c : Char) (t : List Char) (i : Nat) :
    winAt (c :: t) (i + 1) = winAt t i := rfl

theorem winAt_shape {s : List Char} {i : Nat} {w : List Char}
    (h : winAt s i = some w) : w.length = 4 ∧ w.all Char.isDigit = true := by
  unfold winAt at h
  by_cases hc : ((decide (((s.drop i).take 4).length = 4)) &&
      ((s.drop i).take 4).all Char.isDigit) = true
  · rw [if_pos hc] at h
    cases h
    simpa using hc
  · rw [if_neg hc] at h
    cases h

theorem findFirst4_iff (s w : List Char) :
    findFirst4 s = some w ↔
      ∃ i, winAt s i = some w ∧ ∀ j, j < i → winAt s j = none := by
  induction s with
  | nil =>
    simp [findFirst4, winAt_nil]
  | cons c t ih =>
    rw [findFirst4]
    cases h0 : winAt (c :: t) 0 with
    | some w' =>
      simp only [Option.some_inj]
      constructor
      · intro hw
        exact ⟨0, by rw [h0, hw], fun j hj => absurd hj (Nat.not_lt_zero j)⟩
      · rintro ⟨i, hi, hj⟩
        cases i with
        | zero => rw [h0] at hi; exact Option.some_inj.mp hi
        | succ i' => exact absurd h0 (by rw [hj 0 (Nat.succ_pos i')]; simp)
    | none =>
      rw [ih]
      constructor
      · rintro ⟨i, hi, hj⟩
        refine ⟨i + 1, by rw [winAt_cons_succ]; exact hi, fun j hj' => ?_⟩
        cases j with
        | zero => exact h0
        | succ j' => rw [winAt_cons_succ]; exact hj j' (by omega)
      · rintro ⟨i, hi, hj⟩
        cases i with
        | zero => rw [h0] at hi; cases hi
        | succ i' =>
          rw [winAt_cons_succ] at hi
          exact ⟨i', hi, fun j hj' => by
            have := hj (j + 1) (by omega)
            rwa [winAt_cons_succ] at this⟩

/-- C6: the extracted year is the first 4-digit digit sequence in the
first available date string — the window at the least position whose four
characters are all digits — and is empty when the record has no date
string or the first date string has no such window; in particular
`"circa late 2005 reprint"` yields `"2005"` and `"unknown"` yields no
year. -/
theorem C6_year_extraction :
    yearOf [] = [] ∧
    (∀ d ds i w, winAt d i = some w → (∀ j, j < i → winAt d j = none) →
      yearOf (d :: ds) = w) ∧
    (∀ d ds, (∀ j, winAt d j = none) → yearOf (d :: ds) = []) ∧
    yearOf [("circa late 2005 reprint").toList] = ("2005").toList ∧
    yearOf [("unknown").toList] = [] := by
  refine ⟨rfl, ?_, ?_, by decide, by decide⟩
  · intro d ds i w hi hj
    have : findFirst4 d = some w := (findFirst4_iff d w).mpr ⟨i, hi, hj⟩
    simp [yearOf, this]
  · intro d ds h
    cases hf : findFirst4 d with
    | none => simp [yearOf, hf]
    | some w =>
      obtain ⟨i, hi, _⟩ := (findFirst4_iff d w).mp hf
      rw [h i] at hi
      cases hi

/-! ### Batch processing lemmas -/

theorem processBatch_nil (acc : List RawRecord) (N : Nat) :
    processBatch acc [] N = (acc, false) := rfl

theorem processBatch_cons_none {re : RecordElem} (h : extractRecord re = none)
    (acc : List RawRecord) (rest : List RecordElem) (N : Nat) :
    processBatch acc (re :: rest) N = processBatch acc rest N := by
  simp only [processBatch, h]

theorem processBatch_cons_some {re : RecordElem} {r : RawRecord}
    (h : extractRecord re = some r) (acc : List RawRecord) (rest : List RecordElem)
    (N : Nat) :
    processBatch acc (re :: rest) N =
      if N ≤ (acc ++ [r]).length then (acc ++ [r], true)
      else processBatch (acc ++ [r]) rest N := by
  simp only [processBatch, h]

theorem processBatch_length {N : Nat} (l : List RecordElem) :
    ∀ acc : List RawRecord, acc.length < N →
      (processBatch acc l N).1.length ≤ N ∧
        ((processBatch acc l N).2 = false → (processBatch acc l N).1.length < N) := by
  induction l with
  | nil => intro acc h; exact ⟨Nat.le_of_lt h, fun _ => h⟩
  | cons re rest ih =>
    intro acc h
    cases he : extractRecord re with
    | none => rw [processBatch_cons_none he]; exact ih acc h
    | some r =>
      rw [processBatch_cons_some he]
      by_cases hN : N ≤ (acc ++ [r]).length
      · rw [if_pos hN]
        have hl : (acc ++ [r]).length = acc.length + 1 := by simp
        exact ⟨by show (acc ++ [r]).length ≤ N; omega, fun hf => by simp at hf⟩
      · rw [if_neg hN]
        exact ih _ (lt_of_not_le hN)

theorem processBatch_stop_append {N : Nat} (l₁ : List RecordElem) :
    ∀ (acc : List RawRecord) (l₂ : List RecordElem),
      (processBatch acc l₁ N).2 = true →
      processBatch acc (l₁ ++ l₂) N = processBatch acc l₁ N := by
  induction l₁ with
  | nil => intro acc l₂ h; simp [processBatch_nil] at h
  | cons re rest ih =>
    intro acc l₂ h
    cases he : extractRecord re with
    | none =>
      rw [processBatch_cons_none he] at h
      rw [List.cons_append, processBatch_cons_none he acc (rest ++ l₂) N,
        processBatch_cons_none he acc rest N]
      exact ih acc l₂ h
    | some r =>
      rw [processBatch_cons_some he] at h
      by_cases hN : N ≤ (acc ++ [r]).length
      · rw [List.cons_append, processBatch_cons_some he acc (rest ++ l₂) N, if_pos hN,
          processBatch_cons_some he acc rest N, if_pos hN]
      · rw [if_neg hN] at h
        rw [List.cons_append, processBatch_cons_some he acc (rest ++ l₂) N, if_neg hN,
          processBatch_cons_some he acc rest N, if_neg hN]
        exact ih _ l₂ h

theorem processBatch_stop_length {N : Nat} (l : List RecordElem) :
    ∀ acc : List RawRecord, acc.length < N → (processBatch acc l N).2 = true →
      (processBatch acc l N).1.length = N := by
  induction l with
  | nil => intro acc h hf; simp [processBatch_nil] at hf
  | cons re rest ih =>
    intro acc h hf
    cases he : extractRecord re with
    | none =>
      rw [processBatch_cons_none he] at hf ⊢
      exact ih acc h hf
    | some r =>
      rw [processBatch_cons_some he] at hf ⊢
      by_cases hN : N ≤ (acc ++ [r]).length
      · rw [if_pos hN] at hf ⊢
        show (acc ++ [r]).length = N
        have hl : (acc ++ [r]).length = acc.length + 1 := by simp
        omega
      · rw [if_neg hN] at hf ⊢
        exact ih _ (lt_of_not_le hN) hf

/-! ### Harvest loop lemmas -/

theorem harvestLoop_zero (acc : List RawRecord) (k : Nat) (s : Nat → Response)
    (N : Nat) : harvestLoop 0 acc k s N = none := rfl

theorem harvestLoop_succ_error {s : Nat → Response} {k : Nat} {e : HarvestError}
    (h : s k = Except.error e) (fuel : Nat) (acc : List RawRecord) (N : Nat) :
    harvestLoop (fuel + 1) acc k s N = some (Except.error e) := by
  simp only [harvestLoop, h]

theorem harvestLoop_stop {s : Nat → Response} {k : Nat} {page : Page}
    (h : s k = Except.ok page) {acc : List RawRecord} {N : Nat}
    (hflag : (processBatch acc page.records N).2 = true) (fuel : Nat) :
    harvestLoop (fuel + 1) acc k s N =
      some (Except.ok (processBatch acc page.records N).1) := by
  simp only [harvestLoop, h, hflag, if_true]

theorem harvestLoop_token_none {s : Nat → Response} {k : Nat} {page : Page}
    (h : s k = Except.ok page) {acc : List RawRecord} {N : Nat}
    (hflag : (processBatch acc page.records N).2 = false)
    (ht : page.token = none) (fuel : Nat) :
    harvestLoop (fuel + 1) acc k s N =
      some (Except.ok (processBatch acc page.records N).1) := by
  simp only [harvestLoop, h, hflag, ht, Bool.false_eq_true, if_false]

theorem harvestLoop_token_empty {s : Nat → Response} {k : Nat} {page : Page}
    (h : s k = Except.ok page) {acc : List RawRecord} {N : Nat}
    (hflag : (processBatch acc page.records N).2 = false)
    (ht : page.token = some []) (fuel : Nat) :
    harvestLoop (fuel + 1) acc k s N =
      some (Except.ok (processBatch acc page.records N).1) := by
  simp only [harvestLoop, h, hflag, ht, Bool.false_eq_true, if_false]
  simp

theorem harvestLoop_continue {s : Nat → Response} {k : Nat} {page : Page}
    (h : s k = Except.ok page) {acc : List RawRecord} {N : Nat}
    (hflag : (processBatch acc page.records N).2 = false) {t : List Char}
    (ht : page.token = some t) (hte : t ≠ []) (fuel : Nat) :
    harvestLoop (fuel + 1) acc k s N =
      harvestLoop fuel (processBatch acc page.records N).1 (k + 1) s N := by
  simp only [harvestLoop, h, hflag, ht, Bool.false_eq_true, if_false, if_neg hte]

theorem harvestLoop_length {N : Nat} :
    ∀ (fuel : Nat) {acc : List RawRecord} (k : Nat) {s : Nat → Response}
      {recs : List RawRecord}, acc.length < N →
      harvestLoop fuel acc k s N = some (Except.ok recs) → recs.length ≤ N := by
  intro fuel
  induction fuel with
  | zero =>
    intro acc k s recs h hrun
    exact Option.noConfusion hrun
  | succ fuel ih =>
    intro acc k s recs h hrun
    cases hk : s k with
    | error e =>
      rw [harvestLoop_succ_error hk] at hrun
      exact Except.noConfusion (Option.some.inj hrun)
    | ok page =>
      have hlen := processBatch_length (N := N) page.records acc h
      by_cases hflag : (processBatch acc page.records N).2 = true
      · rw [harvestLoop_stop hk hflag] at hrun
        rw [← Except.ok.inj (Option.some.inj hrun)]
        exact hlen.1
      · rw [Bool.not_eq_true] at hflag
        cases ht : page.token with
        | none =>
          rw [harvestLoop_token_none hk hflag ht] at hrun
          rw [← Except.ok.inj (Option.some.inj hrun)]
          exact hlen.1
        | some t =>
          by_cases hte : t = []
          · subst hte
            rw [harvestLoop_token_empty hk hflag ht] at hrun
            rw [← Except.ok.inj (Option.some.inj hrun)]
            exact hlen.1
          · rw [harvestLoop_continue hk hflag ht hte] at hrun
            exact ih (k + 1) (hlen.2 hflag) hrun

/-- C7: a record element whose metadata container is missing, or whose
Dublin-Core element inside the container is missing, contributes nothing
to the output: processing the batch with it equals processing the batch
without it, so no partial or placeholder record is emitted and the
remaining records are still processed. -/
theorem C7_skip_missing_metadata (acc : List RawRecord) (rest : List RecordElem)
    (N : Nat) (re : RecordElem)
    (h : re.metadata = none ∨ ∃ m, re.metadata = some m ∧ m.dc = none) :
    processBatch acc (re :: rest) N = processBatch acc rest N := by
  have he : extractRecord re = none := by
    rcases h with h | ⟨m, hm, hdc⟩
    · simp [extractRecord, h]
    · simp [extractRecord, hm, hdc]
  exact processBatch_cons_none he acc rest N

/-- C9: if the request at step `k` fails (non-success status, network
failure, timeout, or malformed XML), the harvest returns exactly that
error: the records accumulated so far (`acc`) are not surfaced, no `.ok`
result is possible, and the result does not depend on any later
response. -/
theorem C9_error_aborts (fuel : Nat) (acc : List RawRecord) (k : Nat)
    (s : Nat → Response) (N : Nat) (e : HarvestError)
    (h : s k = Except.error e) :
    harvestLoop (fuel + 1) acc k s N = some (Except.error e) ∧
      ∀ recs, harvestLoop (fuel + 1) acc k s N ≠ some (Except.ok recs) := by
  refine ⟨harvestLoop_succ_error h fuel acc N, fun recs hc => ?_⟩
  rw [harvestLoop_succ_error h fuel acc N] at hc
  exact Except.noConfusion (Option.some.inj hc)

/-- C2: with a budget `N` in the allowed range, (1) a successful harvest
returns at most `N` records; (2) once a batch's processing has signalled
the stop flag, appending further record elements to the batch does not
change the result — they are not processed; (3) the stop flag is raised
exactly when the `N`-th record was appended; (4) when the current page
raises the stop flag, the loop returns immediately with exactly those
records, for any remaining fuel and any stream — no further request is
consulted. -/
theorem C2_budget_cap (N : Nat) (s : Nat → Response) (fuel : Nat)
    (hN : 10 ≤ N ∧ N ≤ 1000) :
    (∀ recs, fetch_pmc_oai_records fuel s N = some (Except.ok recs) →
      recs.length ≤ N) ∧
    (∀ (acc : List RawRecord) (l₁ l₂ : List RecordElem),
      (processBatch acc l₁ N).2 = true →
      processBatch acc (l₁ ++ l₂) N = processBatch acc l₁ N) ∧
    (∀ (acc : List RawRecord) (l : List RecordElem), acc.length < N →
      (processBatch acc l N).2 = true → (processBatch acc l N).1.length = N) ∧
    (∀ (acc : List RawRecord) (k : Nat) (page : Page) (s' : Nat → Response),
      s' k = Except.ok page → (processBatch acc page.records N).2 = true →
      harvestLoop (fuel + 1) acc k s' N =
        some (Except.ok (processBatch acc page.records N).1)) := by
  refine ⟨?_, ?_, ?_, ?_⟩
  · intro recs h
    exact harvestLoop_length fuel 0 (by simpa using Nat.lt_of_lt_of_le (by norm_num) hN.1) h
  · intro acc l₁ l₂ h
    exact processBatch_stop_append l₁ acc l₂ h
  · intro acc l h1 h2
    exact processBatch_stop_length l acc h1 h2
  · intro acc k page s' hk hflag
    exact harvestLoop_stop hk hflag fuel

/-! ### Termination and non-termination of the harvest loop (claim C1) -/

/-- A misbehaving endpoint: every response is well-formed, carries no
records, and carries a non-empty resumption token. -/
def c1Stream : Nat → Response := fun _ => Except.ok ⟨[], some ['x']⟩

theorem c1Stream_loops : ∀ fuel k : Nat, harvestLoop fuel [] k c1Stream 10 = none := by
  intro fuel
  induction fuel with
  | zero => intro k; rfl
  | succ fuel ih =>
    intro k
    have hk : c1Stream k = Except.ok ⟨[], some ['x']⟩ := rfl
    have hflag : (processBatch ([] : List RawRecord) (Page.mk [] (some ['x'])).records 10).2 = false := rfl
    rw [harvestLoop_continue hk hflag rfl (by decide) fuel]
    exact ih (k + 1)

/-- C1 counterexample: the harvest loop does not terminate for every
sequence of endpoint responses — on the stream whose every response has
no records and a non-empty continuation token, with budget 10, no number
of loop iterations makes it return. -/
theorem C1_counterexample : ¬ Terminates c1Stream 10 := by
  rintro ⟨fuel, h⟩
  unfold fetch_pmc_oai_records at h
  rw [c1Stream_loops fuel 0] at h
  simp at h

/-- A response that makes the harvest loop exit at the request that
receives it: either the request fails, or the page's continuation token
is absent or has empty text. -/
def exitResponse (r : Response) : Prop :=
  (∃ e, r = Except.error e) ∨
    ∃ p, r = Except.ok p ∧ (p.token = none ∨ p.token = some [])

theorem harvestLoop_exit {s : Nat → Response} {N : Nat} :
    ∀ (n k : Nat) (acc : List RawRecord), exitResponse (s (k + n)) →
      (harvestLoop (n + 1) acc k s N).isSome = true := by
  intro n
  induction n with
  | zero =>
    intro k acc h
    simp only [Nat.add_zero] at h
    rcases h with ⟨e, he⟩ | ⟨p, hp, ht⟩
    · rw [harvestLoop_succ_error he]; rfl
    · by_cases hflag : (processBatch acc p.records N).2 = true
      · rw [harvestLoop_stop hp hflag]; rfl
      · rw [Bool.not_eq_true] at hflag
        rcases ht with ht | ht
        · rw [harvestLoop_token_none hp hflag ht]; rfl
        · rw [harvestLoop_token_empty hp hflag ht]; rfl
  | succ n ih =>
    intro k acc h
    cases hk : s k with
    | error e => rw [harvestLoop_succ_error hk]; rfl
    | ok page =>
      by_cases hflag : (processBatch acc page.records N).2 = true
      · rw [harvestLoop_stop hk hflag]; rfl
      · rw [Bool.not_eq_true] at hflag
        cases ht : page.token with
        | none => rw [harvestLoop_token_none hk hflag ht]; rfl
        | some t =>
          by_cases hte : t = []
          · subst hte; rw [harvestLoop_token_empty hk hflag ht]; rfl
          · rw [harvestLoop_continue hk hflag ht hte]
            apply ih (k + 1)
            have harith : k + 1 + n = k + (n + 1) := by omega
            rw [harith]
            exact h

/-- C1 amended: the harvest loop terminates whenever some response in the
stream either fails or carries an absent or empty continuation token (it
also stops early when the record budget fills, but an endpoint that
returns a non-empty token in every response while never letting the
record count reach the budget loops forever, as `C1_counterexample`
shows). -/
theorem C1_amended_termination (s : Nat → Response) (N : Nat)
    (h : ∃ n, exitResponse (s n)) : Terminates s N := by
  obtain ⟨n, hn⟩ := h
  refine ⟨n + 1, harvestLoop_exit n 0 [] ?_⟩
  simpa using hn

/-! ### The Year field invariant (claims C10 and C4) -/

/-- Shape of the `Year` field the harvester can produce: empty, or exactly
four decimal digits. -/
def yearWellFormed (r : RawRecord) : Prop :=
  r.Year = [] ∨ (r.Year.length = 4 ∧ r.Year.all Char.isDigit = true)

instance (r : RawRecord) : Decidable (yearWellFormed r) := by
  unfold yearWellFormed; infer_instance

theorem findFirst4_shape {s w : List Char} (h : findFirst4 s = some w) :
    w.length = 4 ∧ w.all Char.isDigit = true := by
  obtain ⟨i, hi, -⟩ := (findFirst4_iff s w).mp h
  exact winAt_shape hi

theorem yearOf_wf (ds : List (List Char)) :
    yearOf ds = [] ∨ ((yearOf ds).length = 4 ∧ (yearOf ds).all Char.isDigit = true) := by
  cases ds with
  | nil => exact Or.inl rfl
  | cons d rest =>
    cases hf : findFirst4 d with
    | none => left; simp [yearOf, hf]
    | some w =>
      right
      have hs := findFirst4_shape hf
      simp only [yearOf, hf]
      exact hs

theorem extractRecord_wf {re : RecordElem} {r : RawRecord}
    (h : extractRecord re = some r) : yearWellFormed r := by
  cases hm : re.metadata with
  | none => simp [extractRecord, hm] at h
  | some meta =>
    cases hdc : meta.dc with
    | none => simp [extractRecord, hm, hdc] at h
    | some dc =>
      simp only [extractRecord, hm, hdc, Option.some_inj] at h
      rw [← h]
      exact yearOf_wf (textList dc.dates)

theorem processBatch_wf {N : Nat} (l : List RecordElem) :
    ∀ acc : List RawRecord, (∀ r ∈ acc, yearWellFormed r) →
      ∀ r ∈ (processBatch acc l N).1, yearWellFormed r := by
  induction l with
  | nil => intro acc h; exact h
  | cons re rest ih =>
    intro acc h
    cases he : extractRecord re with
    | none => rw [processBatch_cons_none he]; exact ih acc h
    | some r =>
      have hacc' : ∀ x ∈ acc ++ [r], yearWellFormed x := by
        intro x hx
        rcases List.mem_append.mp hx with hx | hx
        · exact h x hx
        · rw [List.mem_singleton.mp hx]
          exact extractRecord_wf he
      rw [processBatch_cons_some he]
      by_cases hN : N ≤ (acc ++ [r]).length
      · rw [if_pos hN]; exact hacc'
      · rw [if_neg hN]; exact ih _ hacc'

theorem harvestLoop_wf {N : Nat} :
    ∀ (fuel : Nat) {acc : List RawRecord} (k : Nat) {s : Nat → Response}
      {recs : List RawRecord}, (∀ r ∈ acc, yearWellFormed r) →
      harvestLoop fuel acc k s N = some (Except.ok recs) →
      ∀ r ∈ recs, yearWellFormed r := by
  intro fuel
  induction fuel with
  | zero => intro acc k s recs h hrun; exact Option.noConfusion hrun
  | succ fuel ih =>
    intro acc k s recs h hrun
    cases hk : s k with
    | error e =>
      rw [harvestLoop_succ_error hk] at hrun
      exact Except.noConfusion (Option.some.inj hrun)
    | ok page =>
      have hpb := processBatch_wf (N := N) page.records acc h
      by_cases hflag : (processBatch acc page.records N).2 = true
      · rw [harvestLoop_stop hk hflag] at hrun
        rw [← Except.ok.inj (Option.some.inj hrun)]
        exact hpb
      · rw [Bool.not_eq_true] at hflag
        cases ht : page.token with
        | none =>
          rw [harvestLoop_token_none hk hflag ht] at hrun
          rw [← Except.ok.inj (Option.some.inj hrun)]
          exact hpb
        | some t =>
          by_cases hte : t = []
          · subst hte
            rw [harvestLoop_token_empty hk hflag ht] at hrun
            rw [← Except.ok.inj (Option.some.inj hrun)]
            exact hpb
          · rw [harvestLoop_continue hk hflag ht hte] at hrun
            exact ih (k + 1) hpb hrun

theorem pythonIntParse_digits {s : List Char} (h1 : s ≠ [])
    (h2 : s.all Char.isDigit = true) :
    pythonIntParse s = some (Int.ofNat (digitsToNat s)) := by
  unfold pythonIntParse
  rw [if_pos ⟨h1, h2⟩]

theorem keepRecordE_total {r : RawRecord} (h : yearWellFormed r)
    (q : List Char) (fy ty : Int) : (keepRecordE r q fy ty).isSome = true := by
  unfold keepRecordE
  by_cases ht : text_match r.Title q = true
  · rw [if_pos ht]
    unfold yearPredE
    by_cases hy : r.Year = []
    · rw [if_pos hy]; rfl
    · rw [if_neg hy]
      rcases h with h | ⟨h4, hd⟩
      · exact absurd h hy
      · rw [pythonIntParse_digits hy hd]; rfl
  · rw [if_neg ht]; rfl

/-- C10: every record a successful harvest returns has a `Year` field
that is either empty or exactly four decimal digits, so the filter's
unguarded `int(r["Year"])` conversion — modelled by `keepRecordE` through
`pythonIntParse` — never fails on harvested records. -/
theorem C10_year_invariant (fuel : Nat) (s : Nat → Response) (N : Nat)
    (recs : List RawRecord)
    (h : fetch_pmc_oai_records fuel s N = some (Except.ok recs)) :
    ∀ r ∈ recs, yearWellFormed r ∧
      ∀ (q : List Char) (fy ty : Int), (keepRecordE r q fy ty).isSome = true := by
  intro r hr
  have hwf : yearWellFormed r :=
    harvestLoop_wf fuel 0 (fun x hx => absurd hx (List.not_mem_nil x)) h r hr
  exact ⟨hwf, fun q fy ty => keepRecordE_total hwf q fy ty⟩

/-- C4: for a harvested record (whose `Year` is empty or four digits),
the filter's year predicate passes unconditionally when the year is
empty, and otherwise passes exactly when
`fromYear ≤ int(Year) ≤ toYear`. -/
theorem C4_year_predicate (r : RawRecord) (fy ty : Int) (h : yearWellFormed r) :
    (r.Year = [] → yearPredE r.Year fy ty = some true) ∧
    (r.Year ≠ [] →
      (yearPredE r.Year fy ty = some true ↔
        fy ≤ Int.ofNat (digitsToNat r.Year) ∧ Int.ofNat (digitsToNat r.Year) ≤ ty)) := by
  constructor
  · intro hy
    unfold yearPredE
    rw [if_pos hy]
  · intro hy
    rcases h with h | ⟨h4, hd⟩
    · exact absurd h hy
    · unfold yearPredE
      rw [if_neg hy, pythonIntParse_digits hy hd]
      simp

/-! ### The filter loop (claim C8) -/

theorem filterLoopAux_eq (q : List Char) (fy ty : Int) (rs : List RawRecord) :
    ∀ acc : List RawRecord,
      (∀ r ∈ rs, (keepRecordE r q fy ty).isSome = true) →
      filterLoopAux q fy ty acc rs =
        some (acc ++ rs.filter fun r => decide (keepRecordE r q fy ty = some true)) := by
  induction rs with
  | nil => intro acc h; simp [filterLoopAux]
  | cons r rest ih =>
    intro acc h
    have hr := h r (List.mem_cons_self r rest)
    cases hk : keepRecordE r q fy ty with
    | none => rw [hk] at hr; simp at hr
    | some b =>
      simp only [filterLoopAux, hk]
      rw [ih _ fun x hx => h x (List.mem_cons_of_mem r hx)]
      rw [List.filter_cons]
      cases b with
      | true => simp [hk, List.append_assoc]
      | false => simp [hk]

/-- C8: when no record makes the filter condition raise (which holds for
every harvested sequence by `C10_year_invariant`), the filter loop
returns exactly the records passing the combined predicate, as a
`List.filter` of its input — hence in the same relative order, without
duplication — and that output is a sublist (subsequence) of the
harvested input. -/
theorem C8_filter_subsequence (rs : List RawRecord) (q : List Char)
    (fy ty : Int) (h : ∀ r ∈ rs, (keepRecordE r q fy ty).isSome = true) :
    filterLoop rs q fy ty =
      some (rs.filter fun r => decide (keepRecordE r q fy ty = some true)) ∧
    (rs.filter fun r => decide (keepRecordE r q fy ty = some true)).Sublist rs := by
  refine ⟨?_, List.filter_sublist rs⟩
  have haux := filterLoopAux_eq q fy ty rs [] h
  simpa [filterLoop] using haux

/-! ### Concrete witnesses -/

/-- A well-behaved endpoint: a single page with no records and no token. -/
def c1ExitStream : Nat → Response := fun _ => Except.ok ⟨[], none⟩

theorem C1_witness : Terminates c1ExitStream 10 :=
  C1_amended_termination c1ExitStream 10 ⟨0, Or.inr ⟨⟨[], none⟩, rfl, Or.inl rfl⟩⟩

/-- Endpoint stream used by the C2 witness. -/
def c2Stream : Nat → Response := fun _ => Except.ok ⟨[], none⟩

theorem C2_witness :
    (∀ recs, fetch_pmc_oai_records 0 c2Stream 10 = some (Except.ok recs) →
      recs.length ≤ 10) ∧
    (∀ (acc : List RawRecord) (l₁ l₂ : List RecordElem),
      (processBatch acc l₁ 10).2 = true →
      processBatch acc (l₁ ++ l₂) 10 = processBatch acc l₁ 10) ∧
    (∀ (acc : List RawRecord) (l : List RecordElem), acc.length < 10 →
      (processBatch acc l 10).2 = true → (processBatch acc l 10).1.length = 10) ∧
    (∀ (acc : List RawRecord) (k : Nat) (page : Page) (s' : Nat → Response),
      s' k = Except.ok page → (processBatch acc page.records 10).2 = true →
      harvestLoop (0 + 1) acc k s' 10 =
        some (Except.ok (processBatch acc page.records 10).1)) :=
  C2_budget_cap 10 c2Stream 0 (by decide)

theorem C3_witness :
    text_match (("Antibacterial Suture").toList) (("suture").toList) = true ↔
      ((("Antibacterial Suture").toList ≠ ([] : List Char)) ∧
        ∀ w ∈ splitWs (("suture").toList),
          lowerStr w <:+: lowerStr (("Antibacterial Suture").toList)) :=
  C3_text_match_iff (("Antibacterial Suture").toList) (("suture").toList)

/-- Record used by the C4 witness: empty title and authors, year 2005. -/
def c4Rec : RawRecord := ⟨[], [], ['2', '0', '0', '5'], [], []⟩

theorem C4_witness :
    (c4Rec.Year = [] → yearPredE c4Rec.Year 2000 2025 = some true) ∧
    (c4Rec.Year ≠ [] →
      (yearPredE c4Rec.Year 2000 2025 = some true ↔
        (2000 : Int) ≤ Int.ofNat (digitsToNat c4Rec.Year) ∧
          Int.ofNat (digitsToNat c4Rec.Year) ≤ 2025)) :=
  C4_year_predicate c4Rec 2000 2025 (by decide)

theorem C5_witness :
    pickIds [("PMC1").toList] =
      (([("PMC1").toList].filter fun i => List.isPrefixOf ['P', 'M', 'C'] i).getLastD [],
       ([("PMC1").toList].filter fun i => List.isPrefixOf ['1', '0', '.'] i).getLastD []) :=
  C5_pickIds_spec.1 [("PMC1").toList]

theorem C6_witness : yearOf [("a2005").toList] = ("2005").toList :=
  C6_year_extraction.2.1 (("a2005").toList) [] 1 (("2005").toList) (by decide)
    (by
      intro j hj
      have hj0 : j = 0 := by omega
      subst hj0
      decide)

theorem C7_witness :
    processBatch [] [RecordElem.mk none] 10 = processBatch [] [] 10 :=
  C7_skip_missing_metadata [] [] 10 (RecordElem.mk none) (Or.inl rfl)

/-- Record used by the C8 witness. -/
def c8Rec : RawRecord := ⟨("suture study").toList, [], ['2', '0', '0', '5'], [], []⟩

theorem C8_witness :
    filterLoop [c8Rec] (("suture").toList) 2000 2025 =
      some ([c8Rec].filter fun r =>
        decide (keepRecordE r (("suture").toList) 2000 2025 = some true)) ∧
    ([c8Rec].filter fun r =>
      decide (keepRecordE r (("suture").toList) 2000 2025 = some true)).Sublist [c8Rec] :=
  C8_filter_subsequence [c8Rec] (("suture").toList) 2000 2025 (by decide)

/-- Endpoint stream whose first request fails with HTTP 500. -/
def c9Stream : Nat → Response := fun _ => Except.error (HarvestError.httpStatus 500)

theorem C9_witness :
    harvestLoop (0 + 1) [] 0 c9Stream 10 =
      some (Except.error (HarvestError.httpStatus 500)) ∧
    ∀ recs, harvestLoop (0 + 1) [] 0 c9Stream 10 ≠ some (Except.ok recs) :=
  C9_error_aborts 0 [] 0 c9Stream 10 (HarvestError.httpStatus 500) rfl

/-- Record element used by the C10 witness: only a date child. -/
def c10Elem : RecordElem := ⟨some ⟨some ⟨[], [], [], [some ['2', '0', '0', '5']]⟩⟩⟩

/-- Endpoint stream used by the C10 witness. -/
def c10Stream : Nat → Response := fun _ => Except.ok ⟨[c10Elem], none⟩

theorem C10_witness :
    yearWellFormed (RawRecord.mk [] [] ['2', '0', '0', '5'] [] []) ∧
      (keepRecordE (RawRecord.mk [] [] ['2', '0', '0', '5'] [] [])
        [] 2000 2025).isSome = true :=
  have h := C10_year_invariant 1 c10Stream 10
    [RawRecord.mk [] [] ['2', '0', '0', '5'] [] []] (by rfl)
    (RawRecord.mk [] [] ['2', '0', '0', '5'] [] []) (by simp)
  ⟨h.1, h.2 [] 2000 2025⟩

end PMC
